import Mathlib

/-! Command tree of ishell (`command.go`).

A shallow embedding of the command node `Cmd`, its child registry
(`AddCmd`, `DeleteCmd`, `Children`, `hasSubcommand`), its resolver
(`findChildCmd`, `FindCmd`), its flag set (`Flags`, `ParseFlags`) and its
help text (`HelpText`, `HelpHelpText`).

Go's built-in `map[string]*Cmd` is embedded as an association list.  A Go map
has no iteration order of its own: every `range` over it may visit the entries
in a different order.  In the embedding the stored order of the association
list stands for the order one `range` visits the entries in, and two lists
that are permutations of each other stand for the same map.
-/

namespace Ishell

/-! ## Go maps -/

/-- Entries of a Go `map[string]V`, in the order a `range` visits them. -/
abbrev GoMap (V : Type) := List (String × V)

namespace GoMap

/-- Model of `v, ok := m[k]`: `some v` when `ok`, `none` otherwise. -/
def get {V : Type} : GoMap V → String → Option V
  | [], _ => none
  | (k', v) :: m, k => if k' = k then some v else get m k

/-- Model of `delete(m, k)`. -/
def delete {V : Type} (m : GoMap V) (k : String) : GoMap V :=
  m.filter (fun e => decide (e.1 ≠ k))

/-- Model of `m[k] = v`: the entry under `k`, if any, is replaced. -/
def set {V : Type} (m : GoMap V) (k : String) (v : V) : GoMap V :=
  (k, v) :: delete m k

/-- Model of `len(m)`. -/
def len {V : Type} (m : GoMap V) : Nat := m.length

/-- A Go map holds at most one entry per key. -/
def WF {V : Type} (m : GoMap V) : Prop := (m.map Prod.fst).Nodup

instance instDecidableWF {V : Type} (m : GoMap V) : Decidable (WF m) :=
  inferInstanceAs (Decidable (m.map Prod.fst).Nodup)

end GoMap

/-! ## The command node -/

/-- Model of `Shell` as far as `command.go` reads it: `c.Root.Name`. -/
structure Shell where
  Name : String
deriving DecidableEq, Repr

/-- Model of `pflag.ErrorHandling`. -/
inductive ErrorHandling where
  | ContinueOnError
  | ExitOnError
  | PanicOnError
deriving DecidableEq, Repr

/-- Model of `pflag.FlagSet` as far as `command.go` sets it up:
the name and the error handling given to `NewFlagSet` and whether its output
goes to the command's error buffer. -/
structure FlagSet where
  name : String
  errorHandling : ErrorHandling
  outputToErrorBuf : Bool
deriving DecidableEq, Repr

/-- The behaviour of the libraries `command.go` calls into, as far as its
results depend on them. -/
structure Lib where
  /-- Model of `(*pflag.FlagSet).FlagUsages`. -/
  FlagUsages : FlagSet → String
  /-- Model of `(*pflag.FlagSet).Parse`: the flag set after the call, the text
  written to the flag set's output, and the error returned (`none` is nil). -/
  Parse : FlagSet → List String → FlagSet × String × Option String
  /-- The text a `tabwriter.NewWriter(&b, 0, 4, 2, ' ', 0)` emits on `Flush`
  for the text written to it. -/
  tabwriter : String → String
  /-- Whether `(*template.Template).Execute` turns a panic of a called method
  into an error it returns (as `text/template` does since Go 1.12) instead of
  letting the panic through. -/
  recoversPanics : Bool

/-- Model of `type Cmd struct`.  The function-valued fields `Func` and `Completer`
are not read by any operation of `command.go` and are left out.  `children`
is `none` for the nil map; `flags`, `flagErrorBuf` and `Root` are `none` for
nil pointers (`flagErrorBuf` holds the buffer's content). -/
inductive Cmd : Type where
  | mk (Name : String) (Aliases : List String) (Help : String) (LongHelp : String)
      (children : Option (List (String × Cmd)))
      (flags : Option FlagSet) (flagErrorBuf : Option String) (Root : Option Shell) : Cmd

namespace Cmd

def Name : Cmd → String
  | mk n _ _ _ _ _ _ _ => n

def Aliases : Cmd → List String
  | mk _ a _ _ _ _ _ _ => a

def Help : Cmd → String
  | mk _ _ h _ _ _ _ _ => h

def LongHelp : Cmd → String
  | mk _ _ _ l _ _ _ _ => l

def children : Cmd → Option (GoMap Cmd)
  | mk _ _ _ _ ch _ _ _ => ch

def flags : Cmd → Option FlagSet
  | mk _ _ _ _ _ f _ _ => f

def flagErrorBuf : Cmd → Option String
  | mk _ _ _ _ _ _ b _ => b

def Root : Cmd → Option Shell
  | mk _ _ _ _ _ _ _ r => r

/-- Replace the `children` field, as an assignment to `c.children` does. -/
def setChildren : Cmd → Option (GoMap Cmd) → Cmd
  | mk n a h l _ f b r, ch => mk n a h l ch f b r

/-- The entries of `c.children`; reading a nil map behaves as reading an empty one. -/
def entries (c : Cmd) : GoMap Cmd := c.children.getD []

/-- Model of the composite literal `&Cmd{Name: ..., Aliases: ..., Help: ...}`:
every other field has its zero value. -/
def lit (name : String) (aliases : List String) (help : String) : Cmd :=
  mk name aliases help "" none none none none

/-- Model of `func (c *Cmd) AddCmd(cmd *Cmd)`; the result is the node after the call. -/
def AddCmd (c : Cmd) (cmd : Cmd) : Cmd :=
  let c1 := if c.children.isNone then c.setChildren (some []) else c
  c1.setChildren (some (GoMap.set c1.entries cmd.Name cmd))

/-- Model of `func (c *Cmd) DeleteCmd(name string)`; `delete` on a nil map does nothing. -/
def DeleteCmd (c : Cmd) (name : String) : Cmd :=
  match c.children with
  | none => c
  | some m => c.setChildren (some (GoMap.delete m name))

/-- Model of `cmdSorter.Less`, on the two elements compared: `c[i].Name < c[j].Name`.
Go orders strings byte by byte, which on UTF-8 text is the lexicographic order
of the code points. -/
def cmdSorterLess (a b : Cmd) : Bool := decide (a.Name.toList < b.Name.toList)

/-- Model of `sort.Sort(cmdSorter(cmds))`: ascending for `Less`. -/
def sortCmds (cmds : List Cmd) : List Cmd :=
  cmds.insertionSort (fun a b => cmdSorterLess b a = false)

/-- Model of `func (c *Cmd) Children() []*Cmd`. -/
def Children (c : Cmd) : List Cmd :=
  sortCmds (c.entries.map Prod.snd)

/-- The inner loop of `findChildCmd`: `for _, alias := range cmd.Aliases`. -/
def aliasMatches : List String → String → Bool
  | [], _ => false
  | al :: rest, name => if al = name then true else aliasMatches rest name

/-- The outer loop of `findChildCmd`: `for _, cmd := range c.children`. -/
def findAlias : GoMap Cmd → String → Option Cmd
  | [], _ => none
  | (_, cmd) :: m, name => if aliasMatches cmd.Aliases name then some cmd else findAlias m name

/-- Model of `func (c *Cmd) findChildCmd(name string) *Cmd`; `none` is nil. -/
def findChildCmd (c : Cmd) (name : String) : Option Cmd :=
  match GoMap.get c.entries name with
  | some cmd => some cmd
  | none => findAlias c.entries name

/-- The loop of `FindCmd`, with the loop variables `c` and `cmd` and the
tokens from index `i` on. -/
def FindCmdLoop (c : Cmd) (cmd : Option Cmd) : List String → Option Cmd × List String
  | [] => (cmd, [])
  | arg :: rest =>
    match findChildCmd c arg with
    | some cmd1 => FindCmdLoop cmd1 (some cmd1) rest
    | none => (cmd, arg :: rest)

/-- Model of `func (c Cmd) FindCmd(args []string) (*Cmd, []string)`. -/
def FindCmd (c : Cmd) (args : List String) : Option Cmd × List String :=
  FindCmdLoop c none args

/-- The node reached from `c` by following `ts`, each token being the name
a child of the node reached so far is registered under. -/
def descendByName : Cmd → List String → Option Cmd
  | c, [] => some c
  | c, t :: ts =>
    match GoMap.get c.entries t with
    | some ch => descendByName ch ts
    | none => none

/-- The node reached from `c` by following `ts`, one matched child (by name
or by alias) per token. -/
def descendMatched : Cmd → List String → Option Cmd
  | c, [] => some c
  | c, t :: ts =>
    match findChildCmd c t with
    | some ch => descendMatched ch ts
    | none => none

/-- The token `t` matches no child name and no child alias of `c`. -/
abbrev NoMatch (c : Cmd) (t : String) : Prop :=
  GoMap.get c.entries t = none ∧ ∀ e ∈ c.entries, t ∉ e.2.Aliases

end Cmd

/-! ## Help text and flags -/

namespace Cmd

/-- Replace the `flags` field, as an assignment to `c.flags` does. -/
def setFlags : Cmd → Option FlagSet → Cmd
  | mk n a h l ch _ b r, f => mk n a h l ch f b r

/-- Replace the `flagErrorBuf` field, as an assignment to `c.flagErrorBuf` does. -/
def setFlagErrorBuf : Cmd → Option String → Cmd
  | mk n a h l ch f _ r, b => mk n a h l ch f b r

/-- The panic of a nil pointer dereference. -/
def nilDereference : String := "invalid memory address or nil pointer dereference"

/-- Model of `func (c *Cmd) ShellName() string`; `c.Root.Name` panics on a nil `Root`. -/
def ShellName (c : Cmd) : Except String String :=
  match c.Root with
  | none => .error nilDereference
  | some root => .ok root.Name

/-- Model of `func (c *Cmd) hasSubcommand() bool`. -/
def hasSubcommand (c : Cmd) : Bool :=
  if GoMap.len c.entries > 1 then true
  else if (GoMap.get c.entries "help").isNone then decide (GoMap.len c.entries > 0)
  else false

/-- Model of `func (c *Cmd) HelpHelpText() string`; `.error` is the panic. -/
def HelpHelpText (c : Cmd) : Except String String :=
  match (FindCmd c ["help"]).1 with
  | none => .error "Cano not found help command"
  | some helpCmd => .ok helpCmd.Help

/-- Model of `func (c *Cmd) Flags() *flag.FlagSet`: the node after the call and
the flag set returned. -/
def Flags (c : Cmd) : Cmd × FlagSet :=
  match c.flags with
  | some fs => (c, fs)
  | none =>
    let fs : FlagSet :=
      { name := c.Name, errorHandling := ErrorHandling.ContinueOnError, outputToErrorBuf := true }
    let buf : String :=
      match c.flagErrorBuf with
      | none => ""
      | some b => b
    ((c.setFlags (some fs)).setFlagErrorBuf (some buf), fs)

/-- Model of `func (c *Cmd) ParseFlags(arguments []string) error`: the node after
the call and the error returned (`none` is nil). -/
def ParseFlags (lib : Lib) (c : Cmd) (arguments : List String) : Cmd × Option String :=
  match c.flags with
  | some fs =>
    let res := lib.Parse fs arguments
    let c1 := c.setFlags (some res.1)
    let c2 :=
      if fs.outputToErrorBuf then
        c1.setFlagErrorBuf (c.flagErrorBuf.map (fun b => b ++ res.2.1))
      else c1
    (c2, res.2.2)
  | none => (c, none)

/-- The template function `or` on two strings: the first argument when it is
not empty, the last one otherwise. -/
def tmplOr (a b : String) : String := if a ≠ "" then a else b

/-- The template action `{{with v}}{{.}}{{end}}` on a string: `v` when it is
not empty, nothing otherwise. -/
def tmplWith (v : String) : String := if v ≠ "" then v else ""

/-- What executing the first template of `HelpText` (the one for the shell)
writes.  `{{.HelpHelpText}}` is its first action: when that call panics
nothing has been written yet, and the panic is either returned by `Execute`
as an error, which `template` drops, or let through. -/
def rootTemplate (lib : Lib) (c : Cmd) (root : Shell) : Except String String :=
  match HelpHelpText c with
  | .ok h => .ok (h ++ "\n\nUsage:\n    " ++ root.Name ++ " [options]\n    \n")
  | .error e => if lib.recoversPanics then .ok "" else .error e

/-- What executing the second template of `HelpText` writes.  `.Flags` creates
the flag set of the receiver's copy when it has none. -/
def nodeTemplate (lib : Lib) (c : Cmd) (root : Shell) : String :=
  tmplWith (tmplOr c.LongHelp c.Help) ++ "\n\nUsage:\n    " ++ root.Name ++ " " ++ c.Name ++
    " [options]\n\nFlags:\n" ++ lib.FlagUsages (Flags c).2

/-- The row `Fprintf(w, "\t%s\t\t\t%s\n", child.Name, child.Help)` writes. -/
def commandRow (child : Cmd) : String :=
  "\t" ++ child.Name ++ "\t\t\t" ++ child.Help ++ "\n"

/-- What `HelpText` appends after the template: `if c.hasSubcommand() { ... }`. -/
def commandsSection (lib : Lib) (c : Cmd) : String :=
  if hasSubcommand c then
    "Commands:\n" ++ lib.tabwriter (String.join ((Children c).map commandRow))
  else ""

/-- Model of `func (c Cmd) HelpText() string`; `.error` is a panic. -/
def HelpText (lib : Lib) (c : Cmd) : Except String String :=
  match c.Root with
  | none => .error nilDereference
  | some root =>
    let out : Except String String :=
      if c.Name = root.Name then rootTemplate lib c root else .ok (nodeTemplate lib c root)
    match out with
    | .ok t => .ok (t ++ commandsSection lib c)
    | .error e => .error e

/-- Model of `addDefaultFuncs` as far as it registers commands, over any type
of shell `S` with its `AddCmd` method. -/
def addDefaultFuncs {S : Type} (shellAddCmd : S → Cmd → S) (s : S) : S :=
  let s1 := shellAddCmd s (lit "exit" [] "Exit the program")
  let s2 := shellAddCmd s1 (lit "quit" [] "Quit the program")
  let s3 := shellAddCmd s2 (lit "help" [] "Display help")
  shellAddCmd s3 (lit "clear" [] "Clear the screen")

/-- A call of one of the two operations that change a child map. -/
inductive RegistryOp where
  | add (cmd : Cmd)
  | del (name : String)

/-- The node after one registry call. -/
def applyOp (c : Cmd) : RegistryOp → Cmd
  | RegistryOp.add cmd => c.AddCmd cmd
  | RegistryOp.del name => c.DeleteCmd name

/-- The node after a sequence of registry calls, first call first. -/
def applyOps (c : Cmd) (ops : List RegistryOp) : Cmd := ops.foldl applyOp c

/-- Every child of `c` is stored under a key equal to its `Name`. -/
def KeyedByName (c : Cmd) : Prop := ∀ e ∈ c.entries, e.1 = e.2.Name

/-- The recursive resolver: nothing for no tokens; for a first token that
matches no child, nothing and all the tokens; otherwise the result of the
matched child on the other tokens, with the child itself in place of an
absent node. -/
def resolveRec : Cmd → List String → Option Cmd × List String
  | _, [] => (none, [])
  | n, t :: ts =>
    match findChildCmd n t with
    | none => (none, t :: ts)
    | some ch =>
      match resolveRec ch ts with
      | (some m, r) => (some m, r)
      | (none, r) => (some ch, r)

/-- Every child map of the tree holds at most one entry per key, as every Go map does. -/
inductive TreeWF : Cmd → Prop where
  | node (c : Cmd) : GoMap.WF c.entries → (∀ e ∈ c.entries, TreeWF e.2) → TreeWF c

/-- Under each parent of the tree no token is contained in the alias lists of
two different children unless it is also the name of a child of that parent. -/
inductive NoAliasCollision : Cmd → Prop where
  | node (c : Cmd) :
      (∀ e₁ ∈ c.entries, ∀ e₂ ∈ c.entries, e₁.1 ≠ e₂.1 →
        ∀ t, t ∈ e₁.2.Aliases → t ∈ e₂.2.Aliases → GoMap.get c.entries t ≠ none) →
      (∀ e ∈ c.entries, NoAliasCollision e.2) → NoAliasCollision c

/-- The two values stand for the same tree, their children maps visited in
possibly different orders: all other fields agree, and the entries of the two
children maps pair up (the list `ps`), each pair under one key and holding
the same tree again. -/
inductive SameTree : Cmd → Cmd → Prop where
  | node (n : String) (a : List String) (h l : String) (f : Option FlagSet)
      (b : Option String) (r : Option Shell) (ch₁ ch₂ : Option (GoMap Cmd))
      (ps : List ((String × Cmd) × (String × Cmd))) :
      ch₁.isSome = ch₂.isSome →
      (ps.map Prod.fst).Perm (ch₁.getD []) → (ps.map Prod.snd).Perm (ch₂.getD []) →
      (∀ p ∈ ps, p.1.1 = p.2.1) → (∀ p ∈ ps, SameTree p.1.2 p.2.2) →
      SameTree (mk n a h l ch₁ f b r) (mk n a h l ch₂ f b r)

/-- Two returned nodes are both absent or are the same tree. -/
def SameNode : Option Cmd → Option Cmd → Prop
  | none, none => True
  | some a, some b => SameTree a b
  | _, _ => False

end Cmd

/-! ## Example trees -/

def exStatus : Cmd := Cmd.lit "status" [] "show status"

def exHelp : Cmd := Cmd.lit "help" [] "show help"

def exProd : Cmd := Cmd.lit "prod" ["p"] "deploy to production"

def exDeploy : Cmd := (Cmd.lit "deploy" ["d"] "deploy").AddCmd exProd

/-- A root with the children `status`, `help` and `deploy` (alias `d`), the
last with a child `prod` of its own. -/
def exRoot : Cmd := (((Cmd.lit "ishell" [] "").AddCmd exStatus).AddCmd exHelp).AddCmd exDeploy

/-- A command whose alias is the name of another command. -/
def exShadow : Cmd := Cmd.lit "st" ["status"] "shadows status"

/-- The example root with `exShadow` added last, so that a scan of the children
in stored order meets it before `status`. -/
def exRootShadowed : Cmd := exRoot.AddCmd exShadow

/-- A second command named `status`. -/
def exStatusNew : Cmd := Cmd.lit "status" ["s"] "another status"

/-- The example root with its children map visited in the opposite order. -/
def exRootReordered : Cmd := exRoot.setChildren (some exRoot.entries.reverse)

/-- Library behaviour for the examples: no flag usages, a parser that rejects
every argument, a tabwriter that passes its text through. -/
def exLib : Lib :=
  { FlagUsages := fun _ => "",
    Parse := fun fs args =>
      if args = [] then (fs, "", none) else (fs, "unknown flag\n", some "unknown flag"),
    tabwriter := fun s => s,
    recoversPanics := false }

def exShell : Shell := { Name := "ishell" }

/-- A command with `LongHelp` and `Help`, attached to `exShell`. -/
def exTopic : Cmd := Cmd.mk "topic" [] "short help" "long help" none none none (some exShell)

/-- The command `exTopic` after adding `b` and then `a`. -/
def exTopicBA : Cmd := (exTopic.AddCmd (Cmd.lit "b" [] "help b")).AddCmd (Cmd.lit "a" [] "help a")

/-- The command `exTopic` after adding `a` and then `b`. -/
def exTopicAB : Cmd := (exTopic.AddCmd (Cmd.lit "a" [] "help a")).AddCmd (Cmd.lit "b" [] "help b")

/-- A command with the Name of the shell that is not the root of the tree. -/
def exNamesake : Cmd :=
  (Cmd.mk "ishell" [] "a command named as the shell" "" none none none (some exShell)).AddCmd
    (Cmd.lit "help" [] "help of the namesake")

/-- The root of the tree of `exShell`, with the default commands and `exNamesake`. -/
def exShellRoot : Cmd :=
  (Cmd.addDefaultFuncs Cmd.AddCmd
    (Cmd.mk "ishell" [] "" "" none none none (some exShell))).AddCmd exNamesake

/-! ## Lemmas on maps -/

namespace GoMap

theorem get_eq_none_iff {V : Type} (m : GoMap V) (k : String) :
    get m k = none ↔ ∀ e ∈ m, e.1 ≠ k := by
  induction m with
  | nil => simp [get]
  | cons e m ih =>
    obtain ⟨k', v⟩ := e
    by_cases h : k' = k
    · simp [get, h]
    · simp [get, h, ih]

theorem mem_of_get_eq_some {V : Type} {m : GoMap V} {k : String} {v : V}
    (h : get m k = some v) : (k, v) ∈ m := by
  induction m with
  | nil => simp [get] at h
  | cons e m ih =>
    obtain ⟨k', v'⟩ := e
    by_cases hk : k' = k
    · simp [get, hk] at h
      simp [hk, h]
    · simp [get, hk] at h
      exact List.mem_cons_of_mem _ (ih h)

theorem get_eq_some_of_mem {V : Type} {m : GoMap V} {k : String} {v : V}
    (hwf : WF m) (h : (k, v) ∈ m) : get m k = some v := by
  induction m with
  | nil => simp at h
  | cons e m ih =>
    obtain ⟨k', v'⟩ := e
    simp only [WF, List.map_cons, List.nodup_cons] at hwf
    rcases List.mem_cons.1 h with h | h
    · cases h
      simp [get]
    · have hne : k' ≠ k := by
        intro hk
        exact hwf.1 (List.mem_map.2 ⟨(k, v), h, hk.symm⟩)
      simp only [get, hne, if_false]
      exact ih hwf.2 h

theorem mem_delete {V : Type} (m : GoMap V) (k : String) (e : String × V) :
    e ∈ delete m k ↔ e ∈ m ∧ e.1 ≠ k := by
  simp [delete, List.mem_filter]

theorem get_delete_self {V : Type} (m : GoMap V) (k : String) :
    get (delete m k) k = none := by
  rw [get_eq_none_iff]
  intro e he
  exact ((mem_delete m k e).1 he).2

theorem delete_cons {V : Type} (e : String × V) (m : GoMap V) (k : String) :
    delete (e :: m) k = if e.1 = k then delete m k else e :: delete m k := by
  by_cases h : e.1 = k <;> simp [delete, List.filter_cons, h]

theorem get_delete_of_ne {V : Type} (m : GoMap V) {k k' : String} (h : k' ≠ k) :
    get (delete m k) k' = get m k' := by
  induction m with
  | nil => rfl
  | cons e m ih =>
    obtain ⟨k1, v⟩ := e
    rw [delete_cons]
    by_cases h1 : k1 = k
    · have h2 : k1 ≠ k' := fun h3 => h (h3.symm.trans h1)
      simp only [h1, if_true, get]
      rw [ih, if_neg (h1 ▸ h2)]
    · simp only [h1, if_false, get, ih]

theorem delete_eq_self {V : Type} {m : GoMap V} {k : String} (h : get m k = none) :
    delete m k = m := by
  rw [get_eq_none_iff] at h
  simp only [delete, List.filter_eq_self]
  intro e he
  simpa using h e he

theorem WF_delete {V : Type} {m : GoMap V} (k : String) (h : WF m) : WF (delete m k) :=
  List.Nodup.sublist (List.Sublist.map Prod.fst (List.filter_sublist m)) h

theorem WF_set {V : Type} {m : GoMap V} (k : String) (v : V) (h : WF m) : WF (set m k v) := by
  simp only [WF, set, List.map_cons, List.nodup_cons]
  refine ⟨?_, WF_delete k h⟩
  intro hk
  obtain ⟨e, he, hek⟩ := List.mem_map.1 hk
  exact ((mem_delete m k e).1 he).2 hek

end GoMap

/-! ## Lemmas on the resolver -/

namespace Cmd

theorem aliasMatches_iff (l : List String) (name : String) :
    aliasMatches l name = true ↔ name ∈ l := by
  induction l with
  | nil => simp [aliasMatches]
  | cons a l ih =>
    by_cases h : a = name
    · simp [aliasMatches, h]
    · have h2 : ¬ name = a := fun h3 => h h3.symm
      simp [aliasMatches, h, h2, ih]

theorem findAlias_eq_none_iff (m : GoMap Cmd) (name : String) :
    findAlias m name = none ↔ ∀ e ∈ m, name ∉ e.2.Aliases := by
  induction m with
  | nil => simp [findAlias]
  | cons e m ih =>
    obtain ⟨k, cmd⟩ := e
    by_cases h : aliasMatches cmd.Aliases name = true
    · have h2 := (aliasMatches_iff _ _).1 h
      simp [findAlias, h, h2]
    · have h2 : name ∉ cmd.Aliases := fun h3 => h ((aliasMatches_iff _ _).2 h3)
      simp [findAlias, h, h2, ih]

theorem findAlias_eq_some {m : GoMap Cmd} {name : String} {ch : Cmd}
    (h : findAlias m name = some ch) : (∃ k, (k, ch) ∈ m) ∧ name ∈ ch.Aliases := by
  induction m with
  | nil => simp [findAlias] at h
  | cons e m ih =>
    obtain ⟨k, cmd⟩ := e
    by_cases h1 : aliasMatches cmd.Aliases name = true
    · simp only [findAlias, h1, if_true, Option.some.injEq] at h
      subst h
      exact ⟨⟨k, List.mem_cons_self _ _⟩, (aliasMatches_iff _ _).1 h1⟩
    · simp only [findAlias, h1] at h
      obtain ⟨⟨k', hk'⟩, ha⟩ := ih h
      exact ⟨⟨k', List.mem_cons_of_mem _ hk'⟩, ha⟩

theorem findChildCmd_of_get {c : Cmd} {name : String} {ch : Cmd}
    (h : GoMap.get c.entries name = some ch) : findChildCmd c name = some ch := by
  simp [findChildCmd, h]

theorem findChildCmd_eq_none_iff (c : Cmd) (name : String) :
    findChildCmd c name = none ↔ NoMatch c name := by
  unfold findChildCmd NoMatch
  cases hg : GoMap.get c.entries name with
  | none => simp [findAlias_eq_none_iff]
  | some ch => simp

theorem FindCmdLoop_cons_some {c ch : Cmd} {t : String} (cmd : Option Cmd) (ts : List String)
    (h : findChildCmd c t = some ch) :
    FindCmdLoop c cmd (t :: ts) = FindCmdLoop ch (some ch) ts := by
  simp [FindCmdLoop, h]

theorem FindCmdLoop_cons_none {c : Cmd} {t : String} (cmd : Option Cmd) (ts : List String)
    (h : findChildCmd c t = none) :
    FindCmdLoop c cmd (t :: ts) = (cmd, t :: ts) := by
  simp [FindCmdLoop, h]

/-- Once a node has been matched the loop never returns an absent node. -/
theorem FindCmdLoop_some_isSome (c x : Cmd) (ts : List String) :
    (FindCmdLoop c (some x) ts).1.isSome = true := by
  induction ts generalizing c x with
  | nil => simp [FindCmdLoop]
  | cons t ts ih =>
    cases h : findChildCmd c t with
    | none => simp [FindCmdLoop_cons_none _ _ h]
    | some ch => rw [FindCmdLoop_cons_some _ _ h]; exact ih ch ch

/-- The loop on a path of registered names ends at the node the path reaches. -/
theorem FindCmdLoop_descendByName (c d : Cmd) (cmd : Option Cmd) (ts : List String)
    (h : descendByName c ts = some d) :
    FindCmdLoop c cmd ts = (if ts = [] then cmd else some d, []) := by
  induction ts generalizing c cmd with
  | nil => simp [FindCmdLoop]
  | cons t ts ih =>
    simp only [descendByName] at h
    cases hg : GoMap.get c.entries t with
    | none => simp [hg] at h
    | some ch =>
      simp only [hg] at h
      rw [FindCmdLoop_cons_some _ _ (findChildCmd_of_get hg), ih ch (some ch) h]
      cases ts with
      | nil => simp [descendByName] at h; simp [h]
      | cons t2 ts2 => simp

/-- The loop splits its tokens into a matched prefix and the returned remainder. -/
theorem FindCmdLoop_split (c : Cmd) (cmd : Option Cmd) (ts : List String) :
    ∃ pre last, pre ++ (FindCmdLoop c cmd ts).2 = ts ∧
      descendMatched c pre = some last ∧
      (FindCmdLoop c cmd ts).1 = (if pre = [] then cmd else some last) ∧
      (∀ t rest, (FindCmdLoop c cmd ts).2 = t :: rest → NoMatch last t) := by
  induction ts generalizing c cmd with
  | nil => exact ⟨[], c, by simp [FindCmdLoop], rfl, by simp [FindCmdLoop], by simp [FindCmdLoop]⟩
  | cons t ts ih =>
    cases h : findChildCmd c t with
    | none =>
      refine ⟨[], c, ?_, rfl, ?_, ?_⟩
      · simp [FindCmdLoop_cons_none _ _ h]
      · simp [FindCmdLoop_cons_none _ _ h]
      · intro t2 rest heq
        rw [FindCmdLoop_cons_none _ _ h] at heq
        simp only [List.cons.injEq] at heq
        rw [← heq.1]
        exact (findChildCmd_eq_none_iff c t).1 h
    | some ch =>
      obtain ⟨pre, last, h1, h2, h3, h4⟩ := ih ch (some ch)
      refine ⟨t :: pre, last, ?_, ?_, ?_, ?_⟩
      · rw [FindCmdLoop_cons_some _ _ h]; simp [h1]
      · simp [descendMatched, h, h2]
      · rw [FindCmdLoop_cons_some _ _ h, h3]
        by_cases hp : pre = []
        · subst hp
          simp only [descendMatched, Option.some.injEq] at h2
          simp [h2]
        · simp [hp]
      · intro t2 rest heq
        rw [FindCmdLoop_cons_some _ _ h] at heq
        exact h4 t2 rest heq

end Cmd

/-! ## Lemmas on the registry -/

namespace Cmd

theorem setChildren_children (c : Cmd) : c.setChildren c.children = c := by
  cases c; rfl

theorem entries_setChildren (c : Cmd) (m : GoMap Cmd) :
    (c.setChildren (some m)).entries = m := by
  cases c; rfl

theorem entries_AddCmd (c cmd : Cmd) :
    (c.AddCmd cmd).entries = GoMap.set c.entries cmd.Name cmd := by
  cases c with
  | mk n a h l ch f b r =>
    cases ch <;> rfl

theorem entries_DeleteCmd (c : Cmd) (name : String) :
    (c.DeleteCmd name).entries = GoMap.delete c.entries name := by
  cases c with
  | mk n a h l ch f b r =>
    cases ch <;> rfl

theorem cmdSorterLess_eq_false_iff (a b : Cmd) :
    cmdSorterLess b a = false ↔ a.Name ≤ b.Name := by
  simp only [cmdSorterLess, decide_eq_false_iff_not, ← String.lt_iff_toList_lt, not_lt]

instance sortRelTotal : IsTotal Cmd (fun a b => cmdSorterLess b a = false) :=
  ⟨fun a b => by
    simp only [cmdSorterLess_eq_false_iff]
    exact le_total a.Name b.Name⟩

instance sortRelTrans : IsTrans Cmd (fun a b => cmdSorterLess b a = false) :=
  ⟨fun a b c hab hbc => by
    simp only [cmdSorterLess_eq_false_iff] at *
    exact le_trans hab hbc⟩

theorem sortCmds_perm (l : List Cmd) : (sortCmds l).Perm l :=
  List.perm_insertionSort _ l

theorem sortCmds_sorted (l : List Cmd) :
    List.Sorted (fun a b : Cmd => a.Name ≤ b.Name) (sortCmds l) :=
  List.Pairwise.imp (fun {a b} h => (cmdSorterLess_eq_false_iff a b).1 h)
    (List.sorted_insertionSort (fun a b => cmdSorterLess b a = false) l)

/-- The Names of a sorted list depend only on the elements sorted, not on their order. -/
theorem sortCmds_names_eq_of_perm {l₁ l₂ : List Cmd} (h : l₁.Perm l₂) :
    (sortCmds l₁).map Name = (sortCmds l₂).map Name := by
  have hp : ((sortCmds l₁).map Name).Perm ((sortCmds l₂).map Name) :=
    List.Perm.map _ (((sortCmds_perm l₁).trans h).trans (sortCmds_perm l₂).symm)
  have hs₁ : List.Sorted (fun a b : String => a ≤ b) ((sortCmds l₁).map Name) :=
    List.pairwise_map.2 (sortCmds_sorted l₁)
  have hs₂ : List.Sorted (fun a b : String => a ≤ b) ((sortCmds l₂).map Name) :=
    List.pairwise_map.2 (sortCmds_sorted l₂)
  exact List.eq_of_perm_of_sorted hp hs₁ hs₂

/-- With pairwise distinct Names a sorted list is strictly ascending. -/
theorem sortCmds_strict {l : List Cmd} (hnd : (l.map Name).Nodup) :
    List.Sorted (fun a b : Cmd => a.Name < b.Name) (sortCmds l) := by
  have hnd2 : ((sortCmds l).map Name).Nodup :=
    (List.Perm.nodup_iff (List.Perm.map Name (sortCmds_perm l))).2 hnd
  have hne : List.Pairwise (fun a b : Cmd => a.Name ≠ b.Name) (sortCmds l) :=
    List.pairwise_map.1 hnd2
  exact List.Pairwise.imp₂ (fun a b hle hneq => lt_of_le_of_ne hle hneq) (sortCmds_sorted l) hne

instance nameLtAntisymm : IsAntisymm Cmd (fun a b => a.Name < b.Name) :=
  ⟨fun _ _ hab hba => absurd hba (lt_asymm hab)⟩

/-- With pairwise distinct Names the sorted list does not depend on the order of the input. -/
theorem sortCmds_eq_of_perm {l₁ l₂ : List Cmd} (h : l₁.Perm l₂) (hnd : (l₂.map Name).Nodup) :
    sortCmds l₁ = sortCmds l₂ := by
  have hnd1 : (l₁.map Name).Nodup := (List.Perm.nodup_iff (List.Perm.map Name h)).2 hnd
  exact List.eq_of_perm_of_sorted (((sortCmds_perm l₁).trans h).trans (sortCmds_perm l₂).symm)
    (sortCmds_strict hnd1) (sortCmds_strict hnd)

end Cmd

/-! ## The resolver -/

/-- C1: for every node and every non-empty token list in which the first token is
the name a child of the node is registered under and each later token is the
name of a child of the node reached so far, `FindCmd` returns the deepest node
reached together with an empty remainder. -/
theorem FindCmd_exact_path (c d : Cmd) (ts : List String) (hne : ts ≠ [])
    (hpath : Cmd.descendByName c ts = some d) :
    Cmd.FindCmd c ts = (some d, []) := by
  unfold Cmd.FindCmd
  rw [Cmd.FindCmdLoop_descendByName c d none ts hpath, if_neg hne]

theorem FindCmd_exact_path_witness :
    ["deploy", "prod"] ≠ [] ∧ Cmd.descendByName exRoot ["deploy", "prod"] = some exProd ∧
      Cmd.FindCmd exRoot ["deploy", "prod"] = (some exProd, []) :=
  ⟨by decide, rfl, FindCmd_exact_path exRoot exProd ["deploy", "prod"] (by decide) rfl⟩

/-- C2: for every node and every token list whose first token is neither the name
of a child nor contained in any child's alias list, `FindCmd` returns an absent
node together with the whole token list, unchanged. -/
theorem FindCmd_first_unmatched (c : Cmd) (t : String) (ts : List String)
    (hname : GoMap.get c.entries t = none)
    (halias : ∀ e ∈ c.entries, t ∉ e.2.Aliases) :
    Cmd.FindCmd c (t :: ts) = (none, t :: ts) := by
  unfold Cmd.FindCmd
  exact Cmd.FindCmdLoop_cons_none none ts ((Cmd.findChildCmd_eq_none_iff c t).2 ⟨hname, halias⟩)

theorem FindCmd_first_unmatched_witness :
    GoMap.get exRoot.entries "bogus" = none ∧
      (∀ e ∈ exRoot.entries, "bogus" ∉ e.2.Aliases) ∧
      Cmd.FindCmd exRoot ["bogus"] = (none, ["bogus"]) :=
  ⟨rfl, ((Cmd.findChildCmd_eq_none_iff exRoot "bogus").1 rfl).2,
    FindCmd_first_unmatched exRoot "bogus" [] rfl
      ((Cmd.findChildCmd_eq_none_iff exRoot "bogus").1 rfl).2⟩

/-- C3: for every node and every token list, `FindCmd` splits the tokens into a
consumed prefix and the returned remainder: the returned node is the node
reached by descending through the prefix one matched child per token (absent
when the prefix is empty), and when the remainder is non-empty its first token
matches no child name or alias of the last matched node (of the start node
when the prefix is empty).  With a child `status`, the tokens `status extra`
give the `status` node and the remainder `extra`. -/
theorem FindCmd_split (c : Cmd) (args : List String) :
    (∃ pre last, pre ++ (Cmd.FindCmd c args).2 = args ∧
      Cmd.descendMatched c pre = some last ∧
      (Cmd.FindCmd c args).1 = (if pre = [] then none else some last) ∧
      (∀ t rest, (Cmd.FindCmd c args).2 = t :: rest →
        GoMap.get last.entries t = none ∧ ∀ e ∈ last.entries, t ∉ e.2.Aliases)) ∧
    Cmd.FindCmd exRoot ["status", "extra"] = (some exStatus, ["extra"]) :=
  ⟨Cmd.FindCmdLoop_split c none args, rfl⟩

/-- C4: for every node and every token list, `FindCmd` returns an absent node if
and only if no token matched at all: the token list is empty or its first
token matches no child name or alias of the start node.  For the empty token
list the result is the absent node, never the start node. -/
theorem FindCmd_absent_iff (c : Cmd) (args : List String) :
    ((Cmd.FindCmd c args).1 = none ↔
      (args = [] ∨ ∃ t rest, args = t :: rest ∧ GoMap.get c.entries t = none ∧
        ∀ e ∈ c.entries, t ∉ e.2.Aliases)) ∧
    Cmd.FindCmd c [] = (none, []) ∧ (Cmd.FindCmd c []).1 ≠ some c := by
  refine ⟨?_, rfl, by simp [Cmd.FindCmd, Cmd.FindCmdLoop]⟩
  cases args with
  | nil => simp [Cmd.FindCmd, Cmd.FindCmdLoop]
  | cons t ts =>
    unfold Cmd.FindCmd
    cases h : Cmd.findChildCmd c t with
    | none =>
      rw [Cmd.FindCmdLoop_cons_none none ts h]
      have hn := (Cmd.findChildCmd_eq_none_iff c t).1 h
      simp only [List.cons_ne_nil, false_or, true_iff]
      exact ⟨t, ts, rfl, hn⟩
    | some ch =>
      rw [Cmd.FindCmdLoop_cons_some none ts h]
      have hs := Cmd.FindCmdLoop_some_isSome ch ch ts
      constructor
      · intro hnone
        rw [hnone] at hs
        simp at hs
      · rintro (hnil | ⟨t2, rest, heq, hn⟩)
        · simp at hnil
        · simp only [List.cons.injEq] at heq
          rw [← heq.1] at hn
          rw [(Cmd.findChildCmd_eq_none_iff c t).2 hn] at h
          simp at h

/-- C5: for every node and every token that is not the name of any child but is
contained in the alias list of at least one child, `findChildCmd` returns a
child whose alias list contains the token, and `FindCmd` on that single token
returns that child with an empty remainder. -/
theorem findChildCmd_by_alias (c : Cmd) (t : String)
    (hname : GoMap.get c.entries t = none)
    (halias : ∃ e ∈ c.entries, t ∈ e.2.Aliases) :
    ∃ ch, Cmd.findChildCmd c t = some ch ∧ (∃ k, (k, ch) ∈ c.entries) ∧ t ∈ ch.Aliases ∧
      Cmd.FindCmd c [t] = (some ch, []) := by
  cases h : Cmd.findAlias c.entries t with
  | none =>
    obtain ⟨e, he, hte⟩ := halias
    exact absurd hte ((Cmd.findAlias_eq_none_iff _ _).1 h e he)
  | some ch =>
    have hf : Cmd.findChildCmd c t = some ch := by simp [Cmd.findChildCmd, hname, h]
    obtain ⟨hk, ha⟩ := Cmd.findAlias_eq_some h
    refine ⟨ch, hf, hk, ha, ?_⟩
    unfold Cmd.FindCmd
    rw [Cmd.FindCmdLoop_cons_some none [] hf]
    rfl

theorem findChildCmd_by_alias_witness :
    GoMap.get exRoot.entries "d" = none ∧
      (∃ e ∈ exRoot.entries, "d" ∈ e.2.Aliases) ∧
      (∃ ch, Cmd.findChildCmd exRoot "d" = some ch ∧ (∃ k, (k, ch) ∈ exRoot.entries) ∧
        "d" ∈ ch.Aliases ∧ Cmd.FindCmd exRoot ["d"] = (some ch, [])) ∧
      Cmd.FindCmd exRoot ["d"] = (some exDeploy, []) :=
  ⟨rfl, ⟨("deploy", exDeploy), List.mem_cons_self _ _, List.mem_cons_self _ _⟩,
    findChildCmd_by_alias exRoot "d" rfl
      ⟨("deploy", exDeploy), List.mem_cons_self _ _, List.mem_cons_self _ _⟩,
    rfl⟩

/-- C6: exact names take precedence over aliases: for every node and token, if a
child is registered under the token as its name, the map lookup yields that
child and `findChildCmd` returns exactly that child, whatever the alias lists
of its siblings contain. -/
theorem findChildCmd_name_first (c ch : Cmd) (t : String)
    (hwf : GoMap.WF c.entries) (hreg : (t, ch) ∈ c.entries) :
    GoMap.get c.entries t = some ch ∧ Cmd.findChildCmd c t = some ch :=
  ⟨GoMap.get_eq_some_of_mem hwf hreg,
    Cmd.findChildCmd_of_get (GoMap.get_eq_some_of_mem hwf hreg)⟩

theorem findChildCmd_name_first_witness :
    GoMap.WF exRootShadowed.entries ∧ ("status", exStatus) ∈ exRootShadowed.entries ∧
      Cmd.findAlias exRootShadowed.entries "status" = some exShadow ∧
      GoMap.get exRootShadowed.entries "status" = some exStatus ∧
      Cmd.findChildCmd exRootShadowed "status" = some exStatus :=
  ⟨by decide, GoMap.mem_of_get_eq_some rfl, rfl,
    findChildCmd_name_first exRootShadowed exStatus "status" (by decide)
      (GoMap.mem_of_get_eq_some rfl)⟩

/-! ## The registry -/

/-- C7: for every node of the registry (each child stored under its own `Name`,
one entry per key), `Children()` returns exactly the node's direct children
(each child once, none missing, none extra), ordered by ascending `Name`, and
returns the same sequence in whatever order the children map is visited, so
two calls with no `AddCmd`/`DeleteCmd` in between return the same sequence. -/
theorem Children_sorted_perm (c : Cmd) (hkey : Cmd.KeyedByName c)
    (hwf : GoMap.WF c.entries) :
    (Cmd.Children c).Perm (c.entries.map Prod.snd) ∧
    (Cmd.Children c).Nodup ∧
    List.Sorted (fun a b : Cmd => a.Name ≤ b.Name) (Cmd.Children c) ∧
    List.Sorted (fun a b : Cmd => a.Name < b.Name) (Cmd.Children c) ∧
    (∀ m : GoMap Cmd, m.Perm c.entries →
      Cmd.Children (c.setChildren (some m)) = Cmd.Children c) := by
  have hnames : (c.entries.map Prod.snd).map Cmd.Name = c.entries.map Prod.fst := by
    rw [List.map_map]
    exact List.map_congr_left (fun e he => (hkey e he).symm)
  have hnd : ((c.entries.map Prod.snd).map Cmd.Name).Nodup := by
    rw [hnames]
    exact hwf
  have hstrict := Cmd.sortCmds_strict hnd
  refine ⟨Cmd.sortCmds_perm _, ?_, Cmd.sortCmds_sorted _, hstrict, ?_⟩
  · exact List.Nodup.of_map Cmd.Name
      ((List.Perm.nodup_iff (List.Perm.map Cmd.Name (Cmd.sortCmds_perm _))).2 hnd)
  · intro m hm
    unfold Cmd.Children
    rw [Cmd.entries_setChildren]
    exact Cmd.sortCmds_eq_of_perm (List.Perm.map _ hm) hnd

theorem Children_sorted_perm_witness :
    Cmd.KeyedByName exRoot ∧ GoMap.WF exRoot.entries ∧
      exRoot.entries.reverse.Perm exRoot.entries ∧
      (exRoot.setChildren (some exRoot.entries.reverse)).entries =
        [("status", exStatus), ("help", exHelp), ("deploy", exDeploy)] ∧
      Cmd.Children (exRoot.setChildren (some exRoot.entries.reverse)) = Cmd.Children exRoot ∧
      Cmd.Children exRoot = [exDeploy, exHelp, exStatus] :=
  have hkey : Cmd.KeyedByName exRoot := by
    have hent : exRoot.entries =
        [("deploy", exDeploy), ("help", exHelp), ("status", exStatus)] := rfl
    intro e he
    rw [hent] at he
    simp only [List.mem_cons, List.mem_singleton, List.not_mem_nil, or_false] at he
    rcases he with rfl | rfl | rfl <;> rfl
  ⟨hkey, by decide, List.reverse_perm _, rfl,
    (Children_sorted_perm exRoot hkey (by decide)).2.2.2.2 exRoot.entries.reverse
      (List.reverse_perm _),
    rfl⟩

/-- C8, as stated, fails: when a child is already registered under the name,
`AddCmd` replaces it, and the `DeleteCmd` that follows leaves the map without
any entry under that name, not with the earlier one. -/
theorem AddCmd_DeleteCmd_loses_previous :
    GoMap.get exRoot.entries exStatusNew.Name = some exStatus ∧
      GoMap.get ((exRoot.AddCmd exStatusNew).DeleteCmd exStatusNew.Name).entries
        exStatusNew.Name = none ∧
      ((exRoot.AddCmd exStatusNew).DeleteCmd exStatusNew.Name).entries ≠ exRoot.entries :=
  ⟨rfl, rfl, fun h => absurd (congrArg List.length h) (by decide)⟩

/-- C8, amended: for every node and every command `cmd` such that no child is
registered under `cmd.Name` before the call, `AddCmd(cmd)` followed by
`DeleteCmd(cmd.Name)` leaves the child map with the entries it had before
the `AddCmd`. -/
theorem AddCmd_DeleteCmd_fresh (c cmd : Cmd)
    (hfresh : GoMap.get c.entries cmd.Name = none) :
    ((c.AddCmd cmd).DeleteCmd cmd.Name).entries = c.entries := by
  rw [Cmd.entries_DeleteCmd, Cmd.entries_AddCmd, GoMap.set, GoMap.delete_cons]
  simp only [if_true]
  rw [GoMap.delete_eq_self (GoMap.get_delete_self _ _), GoMap.delete_eq_self hfresh]

theorem AddCmd_DeleteCmd_fresh_witness :
    GoMap.get exRoot.entries exShadow.Name = none ∧
      ((exRoot.AddCmd exShadow).DeleteCmd exShadow.Name).entries = exRoot.entries :=
  ⟨rfl, AddCmd_DeleteCmd_fresh exRoot exShadow rfl⟩

/-- C9: for every node, also one whose child map has not been created yet, and
every command `cmd`, after `AddCmd(cmd)` the child map exists, the child
registered under `cmd.Name` is `cmd` and `cmd.Name` resolves to it; the
entries of the map are `cmd` under `cmd.Name` together with the earlier
entries under other names, so an earlier child under `cmd.Name` is gone from
the map and from `Children()`; every lookup under another name is unchanged. -/
theorem AddCmd_replaces (c cmd : Cmd) :
    (c.AddCmd cmd).children.isSome = true ∧
    GoMap.get (c.AddCmd cmd).entries cmd.Name = some cmd ∧
    Cmd.findChildCmd (c.AddCmd cmd) cmd.Name = some cmd ∧
    (∀ k v, (k, v) ∈ (c.AddCmd cmd).entries ↔
      (k = cmd.Name ∧ v = cmd) ∨ (k ≠ cmd.Name ∧ (k, v) ∈ c.entries)) ∧
    (∀ k, k ≠ cmd.Name → GoMap.get (c.AddCmd cmd).entries k = GoMap.get c.entries k) ∧
    (Cmd.Children (c.AddCmd cmd)).Perm
      (cmd :: (c.entries.filter (fun e => decide (e.1 ≠ cmd.Name))).map Prod.snd) := by
  have hget : GoMap.get (c.AddCmd cmd).entries cmd.Name = some cmd := by
    rw [Cmd.entries_AddCmd]; simp [GoMap.set, GoMap.get]
  refine ⟨?_, hget, Cmd.findChildCmd_of_get hget, ?_, ?_, ?_⟩
  · cases c with
    | mk n a h l ch f b r => cases ch <;> rfl
  · intro k v
    rw [Cmd.entries_AddCmd, GoMap.set, List.mem_cons, GoMap.mem_delete]
    constructor
    · rintro (h | ⟨h1, h2⟩)
      · left
        exact ⟨congrArg Prod.fst h, congrArg Prod.snd h⟩
      · right
        exact ⟨h2, h1⟩
    · rintro (⟨h1, h2⟩ | ⟨h1, h2⟩)
      · left
        rw [h1, h2]
      · right
        exact ⟨h2, h1⟩
  · intro k hk
    rw [Cmd.entries_AddCmd, GoMap.set]
    have hk2 : ¬ cmd.Name = k := fun h => hk h.symm
    simp only [GoMap.get, hk2, if_false]
    exact GoMap.get_delete_of_ne c.entries hk
  · unfold Cmd.Children
    rw [Cmd.entries_AddCmd]
    exact Cmd.sortCmds_perm _

/-- C10: for every node and every string `name`, `DeleteCmd(name)` leaves no child
registered under `name` and keeps exactly the entries under other names,
each lookup under another name being unchanged; when no child is registered
under `name` (also when `name` is only an alias of a child, or the child
map was never created) the node is left as it was. -/
theorem DeleteCmd_frame (c : Cmd) (name : String) :
    GoMap.get (c.DeleteCmd name).entries name = none ∧
    (∀ k v, (k, v) ∈ (c.DeleteCmd name).entries ↔ (k ≠ name ∧ (k, v) ∈ c.entries)) ∧
    (∀ k, k ≠ name → GoMap.get (c.DeleteCmd name).entries k = GoMap.get c.entries k) ∧
    (GoMap.get c.entries name = none → c.DeleteCmd name = c) ∧
    (c.children = none → c.DeleteCmd name = c) := by
  refine ⟨?_, ?_, ?_, ?_, ?_⟩
  · rw [Cmd.entries_DeleteCmd]
    exact GoMap.get_delete_self _ _
  · intro k v
    rw [Cmd.entries_DeleteCmd, GoMap.mem_delete]
    exact And.comm
  · intro k hk
    rw [Cmd.entries_DeleteCmd]
    exact GoMap.get_delete_of_ne _ hk
  · intro h
    cases hc : c.children with
    | none => simp [Cmd.DeleteCmd, hc]
    | some m =>
      have hm : c.entries = m := by simp [Cmd.entries, hc]
      rw [hm] at h
      simp only [Cmd.DeleteCmd, hc]
      rw [GoMap.delete_eq_self h, ← hc]
      exact Cmd.setChildren_children c
  · intro hc
    simp [Cmd.DeleteCmd, hc]

theorem DeleteCmd_frame_witness :
    GoMap.get exRoot.entries "d" = none ∧ Cmd.findChildCmd exRoot "d" = some exDeploy ∧
      exRoot.DeleteCmd "d" = exRoot ∧
      (Cmd.lit "empty" [] "").children = none ∧
      (Cmd.lit "empty" [] "").DeleteCmd "x" = Cmd.lit "empty" [] "" ∧
      ((exRoot.DeleteCmd "help").Children).map Cmd.Name = ["deploy", "status"] :=
  ⟨rfl, rfl, (DeleteCmd_frame exRoot "d").2.2.2.1 rfl, rfl,
    (DeleteCmd_frame (Cmd.lit "empty" [] "") "x").2.2.2.2 rfl, rfl⟩

/-! ## Lemmas on subcommands, registry calls and the recursive resolver -/

namespace Cmd

theorem get_set_self {V : Type} (m : GoMap V) (k : String) (v : V) :
    GoMap.get (GoMap.set m k v) k = some v := by
  simp [GoMap.set, GoMap.get]

theorem get_set_of_ne {V : Type} (m : GoMap V) {k k2 : String} (v : V) (h : k2 ≠ k) :
    GoMap.get (GoMap.set m k v) k2 = GoMap.get m k2 := by
  have h2 : ¬ k = k2 := fun h3 => h h3.symm
  simp only [GoMap.set, GoMap.get, h2, if_false]
  exact GoMap.get_delete_of_ne m h

theorem KeyedByName_AddCmd {c : Cmd} (cmd : Cmd) (h : KeyedByName c) :
    KeyedByName (c.AddCmd cmd) := by
  intro e he
  rw [entries_AddCmd, GoMap.set, List.mem_cons] at he
  rcases he with he | he
  · rw [he]
  · exact h e ((GoMap.mem_delete _ _ _).1 he).1

theorem KeyedByName_DeleteCmd {c : Cmd} (name : String) (h : KeyedByName c) :
    KeyedByName (c.DeleteCmd name) := by
  intro e he
  rw [entries_DeleteCmd] at he
  exact h e ((GoMap.mem_delete _ _ _).1 he).1

theorem WF_AddCmd {c : Cmd} (cmd : Cmd) (h : GoMap.WF c.entries) :
    GoMap.WF (c.AddCmd cmd).entries := by
  rw [entries_AddCmd]
  exact GoMap.WF_set _ _ h

theorem WF_DeleteCmd {c : Cmd} (name : String) (h : GoMap.WF c.entries) :
    GoMap.WF (c.DeleteCmd name).entries := by
  rw [entries_DeleteCmd]
  exact GoMap.WF_delete _ h

/-- Registry calls keep the children under their Names and the keys distinct. -/
theorem applyOps_invariant (ops : List RegistryOp) (c : Cmd)
    (h : KeyedByName c ∧ GoMap.WF c.entries) :
    KeyedByName (applyOps c ops) ∧ GoMap.WF (applyOps c ops).entries := by
  induction ops generalizing c with
  | nil => exact h
  | cons op ops ih =>
    have hstep : KeyedByName (applyOp c op) ∧ GoMap.WF (applyOp c op).entries := by
      cases op with
      | add cmd => exact ⟨KeyedByName_AddCmd cmd h.1, WF_AddCmd cmd h.2⟩
      | del name => exact ⟨KeyedByName_DeleteCmd name h.1, WF_DeleteCmd name h.2⟩
    exact ih (applyOp c op) hstep

/-- With the children under their Names and the keys distinct, the Names
listed by `Children` are distinct. -/
theorem Children_names_nodup {c : Cmd} (hk : KeyedByName c) (hwf : GoMap.WF c.entries) :
    ((Children c).map Name).Nodup := by
  have hp : ((Children c).map Name).Perm ((c.entries.map Prod.snd).map Name) :=
    List.Perm.map _ (sortCmds_perm _)
  rw [List.Perm.nodup_iff hp, List.map_map]
  have heq : c.entries.map (Name ∘ Prod.snd) = c.entries.map Prod.fst :=
    List.map_congr_left (fun e he => (hk e he).symm)
  rw [heq]
  exact hwf

/-- The loop started with a matched node returns what the loop started without
one returns, with that node in place of an absent one. -/
theorem FindCmdLoop_some_eq (c x : Cmd) (ts : List String) :
    FindCmdLoop c (some x) ts =
      ((match (FindCmdLoop c none ts).1 with
        | some m => some m
        | none => some x), (FindCmdLoop c none ts).2) := by
  cases ts with
  | nil => simp [FindCmdLoop]
  | cons t ts =>
    cases h : findChildCmd c t with
    | none => simp [FindCmdLoop_cons_none _ _ h]
    | some ch =>
      rw [FindCmdLoop_cons_some _ _ h, FindCmdLoop_cons_some _ _ h]
      have hs := FindCmdLoop_some_isSome ch ch ts
      cases hr : (FindCmdLoop ch (some ch) ts).1 with
      | none => rw [hr] at hs; simp at hs
      | some m => exact Prod.ext hr rfl

theorem FindCmdLoop_none_eq_resolveRec (c : Cmd) (ts : List String) :
    FindCmdLoop c none ts = resolveRec c ts := by
  induction ts generalizing c with
  | nil => rfl
  | cons t ts ih =>
    cases h : findChildCmd c t with
    | none => simp [FindCmdLoop_cons_none _ _ h, resolveRec, h]
    | some ch =>
      rw [FindCmdLoop_cons_some _ _ h, FindCmdLoop_some_eq, ih ch]
      simp only [resolveRec, h]
      rcases hr : resolveRec ch ts with ⟨_ | m, r⟩ <;> rfl

theorem FindCmd_single {c ch : Cmd} {t : String} (h : findChildCmd c t = some ch) :
    FindCmd c [t] = (some ch, []) := by
  unfold FindCmd
  rw [FindCmdLoop_cons_some none [] h]
  rfl

theorem hasSubcommand_setChildren_of_perm (c : Cmd) {m : GoMap Cmd} (h : m.Perm c.entries) :
    hasSubcommand (c.setChildren (some m)) = hasSubcommand c := by
  have hlen : GoMap.len m = GoMap.len c.entries := List.Perm.length_eq h
  have hget : (GoMap.get m "help").isNone = (GoMap.get c.entries "help").isNone := by
    rw [Bool.eq_iff_iff, Option.isNone_iff_eq_none, Option.isNone_iff_eq_none,
      GoMap.get_eq_none_iff, GoMap.get_eq_none_iff]
    exact ⟨fun h1 e he => h1 e (h.mem_iff.2 he), fun h1 e he => h1 e (h.mem_iff.1 he)⟩
  unfold hasSubcommand
  rw [entries_setChildren, hlen, hget]

theorem Children_setChildren_of_perm (c : Cmd) {m : GoMap Cmd} (h : m.Perm c.entries)
    (hnd : ((c.entries.map Prod.snd).map Name).Nodup) :
    Children (c.setChildren (some m)) = Children c := by
  unfold Children
  rw [entries_setChildren]
  exact sortCmds_eq_of_perm (List.Perm.map _ h) hnd

theorem HelpText_of_root (lib : Lib) {c : Cmd} {root : Shell} (hroot : c.Root = some root) :
    HelpText lib c =
      Except.map (fun t => t ++ commandsSection lib c)
        (if c.Name = root.Name then rootTemplate lib c root
          else Except.ok (nodeTemplate lib c root)) := by
  unfold HelpText
  rw [hroot]
  by_cases hn : c.Name = root.Name
  · simp only [hn, if_true]
    cases rootTemplate lib c root <;> rfl
  · simp only [hn, if_false]
    rfl

end Cmd

/-! ## Subcommands and registry calls -/

/-- C11: for every node, `hasSubcommand()` is true if and only if the node has two
or more children, or exactly one child and no child is registered under the
name `help`; it is false for zero children, and for a single child it is
true exactly when that child is not registered under `help`. -/
theorem hasSubcommand_iff (c : Cmd) :
    (Cmd.hasSubcommand c = true ↔
      (2 ≤ GoMap.len c.entries ∨
        (GoMap.len c.entries = 1 ∧ GoMap.get c.entries "help" = none))) ∧
    (GoMap.len c.entries = 0 → Cmd.hasSubcommand c = false) ∧
    (∀ k ch, c.entries = [(k, ch)] → (Cmd.hasSubcommand c = true ↔ k ≠ "help")) := by
  refine ⟨?_, ?_, ?_⟩
  · unfold Cmd.hasSubcommand
    by_cases h1 : GoMap.len c.entries > 1
    · simp only [h1, if_true, true_iff]
      left
      omega
    · cases hg : GoMap.get c.entries "help" with
      | none =>
        simp only [h1, if_false, Option.isNone_none, if_true, decide_eq_true_eq]
        constructor
        · intro h
          right
          exact ⟨by omega, trivial⟩
        · rintro (h | ⟨h, _⟩) <;> omega
      | some ch =>
        simp only [h1, if_false, Option.isNone_some]
        constructor
        · intro h
          simp at h
        · rintro (h | ⟨_, h⟩)
          · omega
          · simp at h
  · intro h0
    unfold Cmd.hasSubcommand
    rw [h0]
    by_cases hg : (GoMap.get c.entries "help").isNone = true <;> simp [hg]
  · intro k ch hc
    unfold Cmd.hasSubcommand
    rw [hc]
    by_cases hk : k = "help"
    · simp [GoMap.len, GoMap.get, hk]
    · simp [GoMap.len, GoMap.get, hk]

theorem hasSubcommand_iff_witness :
    GoMap.len (Cmd.lit "leaf" [] "").entries = 0 ∧
      Cmd.hasSubcommand (Cmd.lit "leaf" [] "") = false ∧
      Cmd.hasSubcommand ((Cmd.lit "x" [] "").AddCmd exHelp) = false ∧
      Cmd.hasSubcommand ((Cmd.lit "x" [] "").AddCmd exStatus) = true ∧
      Cmd.hasSubcommand (((Cmd.lit "x" [] "").AddCmd exHelp).AddCmd exStatus) = true :=
  ⟨rfl, (hasSubcommand_iff (Cmd.lit "leaf" [] "")).2.1 rfl,
    Bool.eq_false_iff.2 (fun h =>
      ((hasSubcommand_iff ((Cmd.lit "x" [] "").AddCmd exHelp)).2.2 "help" exHelp rfl).1 h rfl),
    ((hasSubcommand_iff ((Cmd.lit "x" [] "").AddCmd exStatus)).2.2 "status" exStatus rfl).2
      (by decide),
    (hasSubcommand_iff (((Cmd.lit "x" [] "").AddCmd exHelp).AddCmd exStatus)).1.2
      (Or.inl (by decide))⟩

/-- C12: child names are unique per parent: for every node built from a node
without children by any sequence of `AddCmd` and `DeleteCmd` calls, every
child is stored under a key equal to its `Name`, no key occurs twice, and
no two elements of `Children()` have the same `Name`. -/
theorem applyOps_names_unique (c₀ : Cmd) (ops : List Cmd.RegistryOp)
    (hempty : c₀.entries = []) :
    Cmd.KeyedByName (Cmd.applyOps c₀ ops) ∧ GoMap.WF (Cmd.applyOps c₀ ops).entries ∧
      ((Cmd.Children (Cmd.applyOps c₀ ops)).map Cmd.Name).Nodup := by
  have h0 : Cmd.KeyedByName c₀ ∧ GoMap.WF c₀.entries := by
    unfold Cmd.KeyedByName GoMap.WF
    rw [hempty]
    simp
  have h := Cmd.applyOps_invariant ops c₀ h0
  exact ⟨h.1, h.2, Cmd.Children_names_nodup h.1 h.2⟩

theorem applyOps_names_unique_witness :
    (Cmd.lit "ishell" [] "").entries = [] ∧
      ((Cmd.Children (Cmd.applyOps (Cmd.lit "ishell" [] "")
        [Cmd.RegistryOp.add exStatus, Cmd.RegistryOp.add exHelp, Cmd.RegistryOp.add exStatusNew,
          Cmd.RegistryOp.del "help", Cmd.RegistryOp.add exDeploy])).map Cmd.Name).Nodup ∧
      (Cmd.Children (Cmd.applyOps (Cmd.lit "ishell" [] "")
        [Cmd.RegistryOp.add exStatus, Cmd.RegistryOp.add exHelp, Cmd.RegistryOp.add exStatusNew,
          Cmd.RegistryOp.del "help", Cmd.RegistryOp.add exDeploy])) = [exDeploy, exStatusNew] :=
  ⟨rfl, (applyOps_names_unique (Cmd.lit "ishell" [] "") _ rfl).2.2, rfl⟩

/-! ## Help text -/

/-- C13: for every node attached to a shell, `HelpText()` is what the template
writes followed by the subcommand section, and fails only where the template
does.  The section is present exactly when `hasSubcommand()` is true: the
header `Commands:` and then one row of child `Name` and child `Help` per
element of `Children()`, in `Children()` order, so in ascending name order;
with distinct child Names it is the same in whatever order the children
map is visited.  When `hasSubcommand()` is false nothing is appended. -/
theorem HelpText_commands_section (lib : Lib) (c : Cmd) (root : Shell)
    (hroot : c.Root = some root) :
    Cmd.HelpText lib c =
      Except.map (fun t => t ++ Cmd.commandsSection lib c)
        (if c.Name = root.Name then Cmd.rootTemplate lib c root
          else Except.ok (Cmd.nodeTemplate lib c root)) ∧
    (Cmd.hasSubcommand c = true →
      Cmd.commandsSection lib c =
        "Commands:\n" ++ lib.tabwriter (String.join ((Cmd.Children c).map
          (fun child => "\t" ++ child.Name ++ "\t\t\t" ++ child.Help ++ "\n")))) ∧
    (Cmd.hasSubcommand c = false → Cmd.commandsSection lib c = "") ∧
    List.Sorted (fun a b : String => a ≤ b) ((Cmd.Children c).map Cmd.Name) ∧
    (((c.entries.map Prod.snd).map Cmd.Name).Nodup → ∀ m : GoMap Cmd, m.Perm c.entries →
      Cmd.commandsSection lib (c.setChildren (some m)) = Cmd.commandsSection lib c) := by
  refine ⟨Cmd.HelpText_of_root lib hroot, ?_, ?_, ?_, ?_⟩
  · intro h
    simp only [Cmd.commandsSection, h, if_true]
    rfl
  · intro h
    simp [Cmd.commandsSection, h]
  · exact List.pairwise_map.2 (Cmd.sortCmds_sorted _)
  · intro hnd m hm
    unfold Cmd.commandsSection
    rw [Cmd.hasSubcommand_setChildren_of_perm c hm, Cmd.Children_setChildren_of_perm c hm hnd]

theorem HelpText_commands_section_witness :
    exTopicBA.Root = some exShell ∧
      Cmd.HelpText exLib exTopicBA =
        Except.map (fun t => t ++ Cmd.commandsSection exLib exTopicBA)
          (if exTopicBA.Name = exShell.Name then Cmd.rootTemplate exLib exTopicBA exShell
            else Except.ok (Cmd.nodeTemplate exLib exTopicBA exShell)) ∧
      Cmd.HelpText exLib exTopicBA = Except.ok
        "long help\n\nUsage:\n    ishell topic [options]\n\nFlags:\nCommands:\n\ta\t\t\thelp a\n\tb\t\t\thelp b\n" ∧
      Cmd.HelpText exLib exTopicAB = Cmd.HelpText exLib exTopicBA ∧
      Cmd.HelpText exLib exTopic = Except.ok
        "long help\n\nUsage:\n    ishell topic [options]\n\nFlags:\n" :=
  ⟨rfl, (HelpText_commands_section exLib exTopicBA exShell rfl).1, rfl, rfl, rfl⟩

/-- C14: the code selects the template by comparing Names, `c.Name == c.Root.Name`,
not by identity with the tree root.  The root of the tree of `exShell` is
rendered with the first template (the one for the shell); but so is
`exNamesake`, a child of that root with the shell's name: its help text is
the help of `help` and the usage line of the shell, not its own description,
usage line and flags, which the template for nodes would give. -/
theorem HelpText_namesake_gets_root_template :
    ("ishell", exNamesake) ∈ exShellRoot.entries ∧ exNamesake ≠ exShellRoot ∧
      exShellRoot.Root = some exShell ∧ exNamesake.Root = some exShell ∧
      Cmd.HelpText exLib exShellRoot = Except.ok
        "Display help\n\nUsage:\n    ishell [options]\n    \nCommands:\n\tclear\t\t\tClear the screen\n\texit\t\t\tExit the program\n\thelp\t\t\tDisplay help\n\tishell\t\t\ta command named as the shell\n\tquit\t\t\tQuit the program\n" ∧
      Cmd.HelpText exLib exNamesake =
        Except.ok "help of the namesake\n\nUsage:\n    ishell [options]\n    \n" ∧
      Cmd.nodeTemplate exLib exNamesake exShell ++ Cmd.commandsSection exLib exNamesake =
        "a command named as the shell\n\nUsage:\n    ishell ishell [options]\n\nFlags:\n" ∧
      Cmd.HelpText exLib exNamesake ≠
        Except.ok (Cmd.nodeTemplate exLib exNamesake exShell ++
          Cmd.commandsSection exLib exNamesake) :=
  ⟨List.mem_cons_self _ _,
    fun h => absurd (congrArg (fun c => c.entries.length) h) (by decide), rfl, rfl, rfl, rfl,
    rfl, fun h => absurd (Except.ok.inj h) (by decide)⟩

/-- C15: for every node rendered with the template for nodes, `HelpText()` starts
with the description, which is `LongHelp` when `LongHelp` is not empty,
otherwise `Help` when `Help` is not empty, otherwise empty, followed by the
usage line of the shell name, the node `Name` and `[options]`, then the flag
usages and the subcommand section. -/
theorem HelpText_node_description (lib : Lib) (c : Cmd) (root : Shell)
    (hroot : c.Root = some root) (hnode : c.Name ≠ root.Name) :
    Cmd.HelpText lib c = Except.ok
      ((if c.LongHelp ≠ "" then c.LongHelp else if c.Help ≠ "" then c.Help else "") ++
        "\n\nUsage:\n    " ++ root.Name ++ " " ++ c.Name ++ " [options]\n\nFlags:\n" ++
        lib.FlagUsages (Cmd.Flags c).2 ++ Cmd.commandsSection lib c) := by
  rw [Cmd.HelpText_of_root lib hroot, if_neg hnode]
  have hd : Cmd.tmplWith (Cmd.tmplOr c.LongHelp c.Help) =
      (if c.LongHelp ≠ "" then c.LongHelp else if c.Help ≠ "" then c.Help else "") := by
    unfold Cmd.tmplWith Cmd.tmplOr
    by_cases h1 : c.LongHelp = ""
    · simp [h1]
    · simp [h1]
  simp only [Cmd.nodeTemplate, hd]
  rfl

theorem HelpText_node_description_witness :
    exTopic.Root = some exShell ∧ exTopic.Name ≠ exShell.Name ∧
      Cmd.HelpText exLib exTopic = Except.ok
        ((if exTopic.LongHelp ≠ "" then exTopic.LongHelp
            else if exTopic.Help ≠ "" then exTopic.Help else "") ++
          "\n\nUsage:\n    " ++ exShell.Name ++ " " ++ exTopic.Name ++
          " [options]\n\nFlags:\n" ++
          exLib.FlagUsages (Cmd.Flags exTopic).2 ++ Cmd.commandsSection exLib exTopic) ∧
      Cmd.HelpText exLib (Cmd.mk "plain" [] "short help" "" none none none (some exShell)) =
        Except.ok "short help\n\nUsage:\n    ishell plain [options]\n\nFlags:\n" ∧
      Cmd.HelpText exLib (Cmd.mk "bare" [] "" "" none none none (some exShell)) =
        Except.ok "\n\nUsage:\n    ishell bare [options]\n\nFlags:\n" :=
  ⟨rfl, by decide, HelpText_node_description exLib exTopic exShell rfl (by decide), rfl, rfl⟩

/-- C16: `HelpHelpText()` panics if and only if `FindCmd` on the single token
`help` returns an absent node, that is, no child is registered under the
name `help` and no child has the alias `help`; otherwise it returns the
`Help` field of the command the token resolves to, which is `Display help`
after `addDefaultFuncs` on any root. -/
theorem HelpHelpText_panics_iff (c : Cmd) :
    (Cmd.HelpHelpText c = Except.error "Cano not found help command" ↔
      (Cmd.FindCmd c ["help"]).1 = none) ∧
    ((∃ e, Cmd.HelpHelpText c = Except.error e) ↔ (Cmd.FindCmd c ["help"]).1 = none) ∧
    ((Cmd.FindCmd c ["help"]).1 = none ↔
      (GoMap.get c.entries "help" = none ∧ ∀ e ∈ c.entries, "help" ∉ e.2.Aliases)) ∧
    (∀ helpCmd, (Cmd.FindCmd c ["help"]).1 = some helpCmd →
      Cmd.HelpHelpText c = Except.ok helpCmd.Help) ∧
    Cmd.HelpHelpText (Cmd.addDefaultFuncs Cmd.AddCmd c) = Except.ok "Display help" := by
  refine ⟨?_, ?_, ?_, ?_, ?_⟩
  · unfold Cmd.HelpHelpText
    cases (Cmd.FindCmd c ["help"]).1 <;> simp
  · unfold Cmd.HelpHelpText
    cases (Cmd.FindCmd c ["help"]).1 <;> simp
  · cases h : Cmd.findChildCmd c "help" with
    | none =>
      have hn := (Cmd.findChildCmd_eq_none_iff c "help").1 h
      simp only [Cmd.FindCmd, Cmd.FindCmdLoop_cons_none none [] h, true_iff]
      exact hn
    | some ch =>
      rw [Cmd.FindCmd_single h]
      constructor
      · intro h2
        simp at h2
      · intro h2
        rw [(Cmd.findChildCmd_eq_none_iff c "help").2 h2] at h
        simp at h
  · intro helpCmd h
    unfold Cmd.HelpHelpText
    rw [h]
  · have hget : GoMap.get (Cmd.addDefaultFuncs Cmd.AddCmd c).entries "help" =
        some (Cmd.lit "help" [] "Display help") := by
      unfold Cmd.addDefaultFuncs
      simp only []
      rw [Cmd.entries_AddCmd, Cmd.get_set_of_ne _ _ (by decide : "help" ≠ (Cmd.lit "clear" [] "Clear the screen").Name),
        Cmd.entries_AddCmd]
      exact Cmd.get_set_self _ _ _
    unfold Cmd.HelpHelpText
    rw [Cmd.FindCmd_single (Cmd.findChildCmd_of_get hget)]
    rfl

/-! ## Flags -/

/-- C17: for every node whose flag set has never been created and every argument
list, `ParseFlags` returns no error and leaves the node as it was, without a
flag set. -/
theorem ParseFlags_without_flags (lib : Lib) (c : Cmd) (arguments : List String)
    (hnil : c.flags = none) :
    Cmd.ParseFlags lib c arguments = (c, none) ∧
      (Cmd.ParseFlags lib c arguments).1.flags = none := by
  have h : Cmd.ParseFlags lib c arguments = (c, none) := by
    unfold Cmd.ParseFlags
    rw [hnil]
  rw [h]
  exact ⟨rfl, hnil⟩

theorem ParseFlags_without_flags_witness :
    exRoot.flags = none ∧
      (exLib.Parse (Cmd.Flags exRoot).2 ["--bogus"]).2.2 = some "unknown flag" ∧
      (Cmd.ParseFlags exLib (Cmd.Flags exRoot).1 ["--bogus"]).2 = some "unknown flag" ∧
      Cmd.ParseFlags exLib exRoot ["--bogus"] = (exRoot, none) ∧
      (Cmd.ParseFlags exLib exRoot ["--bogus"]).1.flags = none :=
  ⟨rfl, rfl, rfl, ParseFlags_without_flags exLib exRoot ["--bogus"] rfl⟩

/-- C18: `Flags()` creates the flag set of a node at most once: on a node without
a flag set the call creates one named by the node's `Name`, writing to the
node's own error buffer, and stores it on the node, leaving the other
fields as they were; on a node with a flag set it returns that flag set
and changes nothing; so a second call returns the flag set of the first and
leaves the node as the first call left it. -/
theorem Flags_idempotent (c : Cmd) :
    (c.flags = none →
      (Cmd.Flags c).2.name = c.Name ∧ (Cmd.Flags c).2.outputToErrorBuf = true ∧
        (Cmd.Flags c).2.errorHandling = ErrorHandling.ContinueOnError ∧
        (Cmd.Flags c).1.flagErrorBuf.isSome = true) ∧
    (∀ fs, c.flags = some fs → Cmd.Flags c = (c, fs)) ∧
    (Cmd.Flags c).1.flags = some (Cmd.Flags c).2 ∧
    Cmd.Flags (Cmd.Flags c).1 = Cmd.Flags c ∧
    ((Cmd.Flags c).1.Name = c.Name ∧ (Cmd.Flags c).1.Aliases = c.Aliases ∧
      (Cmd.Flags c).1.Help = c.Help ∧ (Cmd.Flags c).1.LongHelp = c.LongHelp ∧
      (Cmd.Flags c).1.children = c.children ∧ (Cmd.Flags c).1.Root = c.Root) := by
  cases c with
  | mk n a h l ch f b r =>
    cases f with
    | none =>
      refine ⟨fun _ => ⟨rfl, rfl, rfl, ?_⟩, ?_, rfl, rfl, rfl, rfl, rfl, rfl, rfl, rfl⟩
      · cases b <;> rfl
      · intro fs hfs
        simp [Cmd.flags] at hfs
    | some fs0 =>
      refine ⟨?_, ?_, rfl, rfl, rfl, rfl, rfl, rfl, rfl, rfl⟩
      · intro hnone
        simp [Cmd.flags] at hnone
      · intro fs hfs
        simp only [Cmd.flags, Option.some.injEq] at hfs
        subst hfs
        rfl

theorem Flags_idempotent_witness :
    exRoot.flags = none ∧ (Cmd.Flags exRoot).2.name = "ishell" ∧
      (Cmd.Flags exRoot).1.flagErrorBuf = some "" ∧
      (Cmd.Flags (Cmd.Flags exRoot).1).2 = (Cmd.Flags exRoot).2 ∧
      (Cmd.Flags (Cmd.Flags exRoot).1).1 = (Cmd.Flags exRoot).1 :=
  ⟨rfl, ((Flags_idempotent exRoot).1 rfl).1, rfl,
    congrArg Prod.snd (Flags_idempotent exRoot).2.2.2.1,
    congrArg Prod.fst (Flags_idempotent exRoot).2.2.2.1⟩

/-! ## The recursive resolver -/

/-- C19: the loop of `FindCmd` equals the recursive resolver: for every node,
`FindCmd` on no tokens is (absent, empty); on tokens whose first matches no
child it is (absent, all the tokens); and on tokens whose first matches the
child `ch` it is the result of `FindCmd` of `ch` on the other tokens, with
`ch` in place of an absent node. -/
theorem FindCmd_eq_resolveRec (n : Cmd) :
    (∀ args, Cmd.FindCmd n args = Cmd.resolveRec n args) ∧
    Cmd.FindCmd n [] = (none, []) ∧
    (∀ t ts, Cmd.findChildCmd n t = none → Cmd.FindCmd n (t :: ts) = (none, t :: ts)) ∧
    (∀ t ts ch, Cmd.findChildCmd n t = some ch →
      Cmd.FindCmd n (t :: ts) =
        ((match (Cmd.FindCmd ch ts).1 with
          | some m => some m
          | none => some ch), (Cmd.FindCmd ch ts).2)) := by
  refine ⟨fun args => Cmd.FindCmdLoop_none_eq_resolveRec n args, rfl, ?_, ?_⟩
  · intro t ts h
    exact Cmd.FindCmdLoop_cons_none none ts h
  · intro t ts ch h
    unfold Cmd.FindCmd
    rw [Cmd.FindCmdLoop_cons_some none ts h]
    exact Cmd.FindCmdLoop_some_eq ch ch ts

theorem FindCmd_eq_resolveRec_witness :
    Cmd.findChildCmd exRoot "d" = some exDeploy ∧
      Cmd.FindCmd exDeploy ["p", "x"] = (some exProd, ["x"]) ∧
      Cmd.FindCmd exRoot ["d", "p", "x"] = (some exProd, ["x"]) ∧
      Cmd.FindCmd exDeploy ["x"] = (none, ["x"]) ∧
      Cmd.FindCmd exRoot ["d", "x"] = (some exDeploy, ["x"]) ∧
      Cmd.resolveRec exRoot ["d", "x"] = (some exDeploy, ["x"]) :=
  ⟨rfl, rfl, (FindCmd_eq_resolveRec exRoot).2.2.2 "d" ["p", "x"] exDeploy rfl, rfl,
    (FindCmd_eq_resolveRec exRoot).2.2.2 "d" ["x"] exDeploy rfl,
    ((FindCmd_eq_resolveRec exRoot).1 ["d", "x"]).symm.trans rfl⟩

/-! ## Lemmas on visiting orders -/

namespace Cmd

theorem SameTree_refl_aux (n : Nat) : ∀ c : Cmd, sizeOf c ≤ n → SameTree c c := by
  induction n with
  | zero =>
    intro c hc
    cases c
    simp at hc
  | succ n ih =>
    intro c hc
    cases c with
    | mk nm a h l ch f b r =>
      refine SameTree.node nm a h l f b r ch ch ((ch.getD []).map (fun e => (e, e))) rfl ?_ ?_ ?_ ?_
      · simp [List.map_map, Function.comp_def]
      · simp [List.map_map, Function.comp_def]
      · intro p hp
        obtain ⟨e, _, rfl⟩ := List.mem_map.1 hp
        rfl
      · intro p hp
        obtain ⟨e, he, rfl⟩ := List.mem_map.1 hp
        apply ih
        cases ch with
        | none => simp at he
        | some m =>
          have h1 := List.sizeOf_lt_of_mem he
          obtain ⟨k, v⟩ := e
          simp at h1 hc ⊢
          omega

/-- Every tree is the same tree as itself. -/
theorem SameTree_refl (c : Cmd) : SameTree c c :=
  SameTree_refl_aux (sizeOf c) c (Nat.le_refl _)

/-- Visiting the children map of a node in another order gives the same tree. -/
theorem SameTree_setChildren_of_perm (c : Cmd) {m : GoMap Cmd} (h : m.Perm c.entries)
    (hsome : c.children.isSome = true) : SameTree c (c.setChildren (some m)) := by
  cases c with
  | mk nm a hp l ch f b r =>
    cases ch with
    | none => simp [children] at hsome
    | some m₀ =>
      refine SameTree.node nm a hp l f b r (some m₀) (some m) (m₀.map (fun e => (e, e))) rfl
        ?_ ?_ ?_ ?_
      · simp [List.map_map, Function.comp_def]
      · have h2 : (List.map Prod.snd (List.map (fun e : String × Cmd => (e, e)) m₀)) = m₀ := by
          simp [List.map_map, Function.comp_def]
        rw [h2]
        exact h.symm
      · intro p hp2
        obtain ⟨e, _, rfl⟩ := List.mem_map.1 hp2
        rfl
      · intro p hp2
        obtain ⟨e, _, rfl⟩ := List.mem_map.1 hp2
        exact SameTree_refl _

theorem SameTree_Aliases {a b : Cmd} (h : SameTree a b) : a.Aliases = b.Aliases := by
  cases h; rfl

theorem SameTree_Name {a b : Cmd} (h : SameTree a b) : a.Name = b.Name := by
  cases h; rfl

/-- The entries of two values of the same tree pair up. -/
theorem SameTree_entries {c₁ c₂ : Cmd} (h : SameTree c₁ c₂) :
    ∃ ps : List ((String × Cmd) × (String × Cmd)),
      (ps.map Prod.fst).Perm c₁.entries ∧ (ps.map Prod.snd).Perm c₂.entries ∧
      (∀ p ∈ ps, p.1.1 = p.2.1) ∧ (∀ p ∈ ps, SameTree p.1.2 p.2.2) := by
  cases h with
  | node n a hp l f b r ch₁ ch₂ ps _ h1 h2 h3 h4 => exact ⟨ps, h1, h2, h3, h4⟩

theorem SameTree_entries_forward {c₁ c₂ : Cmd} (h : SameTree c₁ c₂) :
    ∀ e₁ ∈ c₁.entries, ∃ e₂ ∈ c₂.entries, e₁.1 = e₂.1 ∧ SameTree e₁.2 e₂.2 := by
  obtain ⟨ps, h1, h2, h3, h4⟩ := SameTree_entries h
  intro e₁ he₁
  obtain ⟨p, hp, rfl⟩ := List.mem_map.1 (h1.mem_iff.2 he₁)
  exact ⟨p.2, h2.mem_iff.1 (List.mem_map.2 ⟨p, hp, rfl⟩), h3 p hp, h4 p hp⟩

theorem SameTree_entries_backward {c₁ c₂ : Cmd} (h : SameTree c₁ c₂) :
    ∀ e₂ ∈ c₂.entries, ∃ e₁ ∈ c₁.entries, e₁.1 = e₂.1 ∧ SameTree e₁.2 e₂.2 := by
  obtain ⟨ps, h1, h2, h3, h4⟩ := SameTree_entries h
  intro e₂ he₂
  obtain ⟨p, hp, rfl⟩ := List.mem_map.1 (h2.mem_iff.2 he₂)
  exact ⟨p.1, h1.mem_iff.1 (List.mem_map.2 ⟨p, hp, rfl⟩), h3 p hp, h4 p hp⟩

theorem SameTree_WF {c₁ c₂ : Cmd} (h : SameTree c₁ c₂) (hwf : GoMap.WF c₁.entries) :
    GoMap.WF c₂.entries := by
  obtain ⟨ps, h1, h2, h3, _⟩ := SameTree_entries h
  have hk : (ps.map Prod.snd).map Prod.fst = (ps.map Prod.fst).map Prod.fst := by
    rw [List.map_map, List.map_map]
    exact List.map_congr_left (fun p hp => (h3 p hp).symm)
  have hp : (c₂.entries.map Prod.fst).Perm (c₁.entries.map Prod.fst) :=
    ((List.Perm.map Prod.fst h2).symm.trans (hk ▸ List.Perm.refl _)).trans
      (List.Perm.map Prod.fst h1)
  exact (List.Perm.nodup_iff hp).2 hwf

theorem findChildCmd_mem {c ch : Cmd} {t : String} (h : findChildCmd c t = some ch) :
    ∃ k, (k, ch) ∈ c.entries := by
  unfold findChildCmd at h
  cases hg : GoMap.get c.entries t with
  | some x =>
    rw [hg] at h
    simp only [Option.some.injEq] at h
    subst h
    exact ⟨t, GoMap.mem_of_get_eq_some hg⟩
  | none =>
    rw [hg] at h
    exact (findAlias_eq_some h).1

/-- One step of the resolver gives the same child in whatever order the
children map is visited, when the keys are distinct and no alias collides. -/
theorem findChildCmd_sameTree {c₁ c₂ : Cmd} (h : SameTree c₁ c₂) (hwf : GoMap.WF c₁.entries)
    (hnc : ∀ e₁ ∈ c₁.entries, ∀ e₂ ∈ c₁.entries, e₁.1 ≠ e₂.1 →
      ∀ t, t ∈ e₁.2.Aliases → t ∈ e₂.2.Aliases → GoMap.get c₁.entries t ≠ none)
    (t : String) : SameNode (findChildCmd c₁ t) (findChildCmd c₂ t) := by
  have hfw := SameTree_entries_forward h
  have hbw := SameTree_entries_backward h
  have hwf₂ := SameTree_WF h hwf
  cases hg : GoMap.get c₁.entries t with
  | some a =>
    obtain ⟨e₂, he₂, hk, hs⟩ := hfw (t, a) (GoMap.mem_of_get_eq_some hg)
    have hg₂ : GoMap.get c₂.entries t = some e₂.2 := by
      apply GoMap.get_eq_some_of_mem hwf₂
      have : (t, e₂.2) = e₂ := Prod.ext hk rfl
      rw [this]
      exact he₂
    rw [findChildCmd_of_get hg, findChildCmd_of_get hg₂]
    exact hs
  | none =>
    have hg₂ : GoMap.get c₂.entries t = none := by
      rw [GoMap.get_eq_none_iff]
      intro e₂ he₂
      obtain ⟨e₁, he₁, hk, _⟩ := hbw e₂ he₂
      rw [← hk]
      exact (GoMap.get_eq_none_iff _ _).1 hg e₁ he₁
    have hf₁ : findChildCmd c₁ t = findAlias c₁.entries t := by simp [findChildCmd, hg]
    have hf₂ : findChildCmd c₂ t = findAlias c₂.entries t := by simp [findChildCmd, hg₂]
    rw [hf₁, hf₂]
    cases ha₁ : findAlias c₁.entries t with
    | none =>
      have hnone : findAlias c₂.entries t = none := by
        rw [findAlias_eq_none_iff]
        intro e₂ he₂
        obtain ⟨e₁, he₁, _, hs⟩ := hbw e₂ he₂
        rw [← SameTree_Aliases hs]
        exact (findAlias_eq_none_iff _ _).1 ha₁ e₁ he₁
      rw [hnone]
      trivial
    | some a =>
      obtain ⟨⟨k, hka⟩, hta⟩ := findAlias_eq_some ha₁
      cases ha₂ : findAlias c₂.entries t with
      | none =>
        obtain ⟨e₂, he₂, _, hs⟩ := hfw (k, a) hka
        have := (findAlias_eq_none_iff _ _).1 ha₂ e₂ he₂
        rw [← SameTree_Aliases hs] at this
        exact absurd hta this
      | some b =>
        obtain ⟨⟨k₂, hkb⟩, htb⟩ := findAlias_eq_some ha₂
        obtain ⟨e₁, he₁, _, hs⟩ := hbw (k₂, b) hkb
        have hte₁ : t ∈ e₁.2.Aliases := by
          rw [SameTree_Aliases hs]
          exact htb
        have hkey : k = e₁.1 := by
          by_contra hne
          exact hnc (k, a) hka e₁ he₁ hne t hta hte₁ hg
        have h1 := GoMap.get_eq_some_of_mem hwf hka
        have h2 : GoMap.get c₁.entries k = some e₁.2 := by
          apply GoMap.get_eq_some_of_mem hwf
          have : (k, e₁.2) = e₁ := Prod.ext hkey rfl
          rw [this]
          exact he₁
        rw [h1] at h2
        simp only [Option.some.injEq] at h2
        show SameTree a b
        rw [h2]
        exact hs

/-- The loop of `FindCmd` gives the same result in whatever order the children
maps are visited, when the keys are distinct and no alias collides. -/
theorem FindCmdLoop_sameTree (ts : List String) :
    ∀ (c₁ c₂ : Cmd) (o₁ o₂ : Option Cmd), SameTree c₁ c₂ → TreeWF c₁ → NoAliasCollision c₁ →
      SameNode o₁ o₂ →
      SameNode (FindCmdLoop c₁ o₁ ts).1 (FindCmdLoop c₂ o₂ ts).1 ∧
        (FindCmdLoop c₁ o₁ ts).2 = (FindCmdLoop c₂ o₂ ts).2 := by
  induction ts with
  | nil =>
    intro c₁ c₂ o₁ o₂ _ _ _ ho
    exact ⟨ho, rfl⟩
  | cons t ts ih =>
    intro c₁ c₂ o₁ o₂ hs hwf hnc ho
    cases hwf with
    | node _ hwf₁ hwfch =>
      cases hnc with
      | node _ hnc₁ hncch =>
        have hstep := findChildCmd_sameTree hs hwf₁ hnc₁ t
        cases h₁ : findChildCmd c₁ t with
        | none =>
          cases h₂ : findChildCmd c₂ t with
          | none =>
            rw [FindCmdLoop_cons_none _ _ h₁, FindCmdLoop_cons_none _ _ h₂]
            exact ⟨ho, rfl⟩
          | some b =>
            rw [h₁, h₂] at hstep
            exact absurd hstep (by simp [SameNode])
        | some a =>
          cases h₂ : findChildCmd c₂ t with
          | none =>
            rw [h₁, h₂] at hstep
            exact absurd hstep (by simp [SameNode])
          | some b =>
            rw [h₁, h₂] at hstep
            obtain ⟨k, hk⟩ := findChildCmd_mem h₁
            rw [FindCmdLoop_cons_some _ _ h₁, FindCmdLoop_cons_some _ _ h₂]
            exact ih a b (some a) (some b) hstep (hwfch (k, a) hk) (hncch (k, a) hk) hstep

theorem SameNode_map_Name {o₁ o₂ : Option Cmd} (h : SameNode o₁ o₂) :
    o₁.map Name = o₂.map Name := by
  cases o₁ with
  | none =>
    cases o₂ with
    | none => rfl
    | some b => exact absurd h (by simp [SameNode])
  | some a =>
    cases o₂ with
    | none => exact absurd h (by simp [SameNode])
    | some b =>
      have h2 : SameTree a b := h
      simp [SameTree_Name h2]

theorem TreeWF_of_entries_nil {c : Cmd} (h : c.entries = []) : TreeWF c := by
  refine TreeWF.node c ?_ ?_
  · unfold GoMap.WF
    rw [h]
    exact List.nodup_nil
  · intro e he
    rw [h] at he
    simp at he

theorem NoAliasCollision_of_entries_nil {c : Cmd} (h : c.entries = []) : NoAliasCollision c := by
  refine NoAliasCollision.node c ?_ ?_
  · intro e he
    rw [h] at he
    simp at he
  · intro e he
    rw [h] at he
    simp at he

end Cmd

/-! ## Example trees and visiting orders -/

theorem exDeploy_TreeWF : Cmd.TreeWF exDeploy := by
  refine Cmd.TreeWF.node _ (by decide) ?_
  have hent : exDeploy.entries = [("prod", exProd)] := rfl
  intro e he
  rw [hent, List.mem_singleton] at he
  subst he
  exact Cmd.TreeWF_of_entries_nil rfl

theorem exDeploy_NoAliasCollision : Cmd.NoAliasCollision exDeploy := by
  have hent : exDeploy.entries = [("prod", exProd)] := rfl
  refine Cmd.NoAliasCollision.node _ ?_ ?_
  · intro e₁ he₁ e₂ he₂ hne
    rw [hent, List.mem_singleton] at he₁ he₂
    subst he₁
    subst he₂
    exact absurd rfl hne
  · intro e he
    rw [hent, List.mem_singleton] at he
    subst he
    exact Cmd.NoAliasCollision_of_entries_nil rfl

theorem exRoot_TreeWF : Cmd.TreeWF exRoot := by
  refine Cmd.TreeWF.node _ (by decide) ?_
  have hent : exRoot.entries = [("deploy", exDeploy), ("help", exHelp), ("status", exStatus)] :=
    rfl
  intro e he
  rw [hent] at he
  simp only [List.mem_cons, List.mem_singleton, List.not_mem_nil, or_false] at he
  rcases he with rfl | rfl | rfl
  · exact exDeploy_TreeWF
  · exact Cmd.TreeWF_of_entries_nil rfl
  · exact Cmd.TreeWF_of_entries_nil rfl

theorem exRoot_NoAliasCollision : Cmd.NoAliasCollision exRoot := by
  have hent : exRoot.entries = [("deploy", exDeploy), ("help", exHelp), ("status", exStatus)] :=
    rfl
  refine Cmd.NoAliasCollision.node _ ?_ ?_
  · intro e₁ he₁ e₂ he₂ hne t ht₁ ht₂
    rw [hent] at he₁ he₂
    simp only [List.mem_cons, List.mem_singleton, List.not_mem_nil, or_false] at he₁ he₂
    rcases he₁ with rfl | rfl | rfl <;> rcases he₂ with rfl | rfl | rfl <;>
      first
        | exact absurd rfl hne
        | exact absurd ht₁ (List.not_mem_nil t)
        | exact absurd ht₂ (List.not_mem_nil t)
  · intro e he
    rw [hent] at he
    simp only [List.mem_cons, List.mem_singleton, List.not_mem_nil, or_false] at he
    rcases he with rfl | rfl | rfl
    · exact exDeploy_NoAliasCollision
    · exact Cmd.NoAliasCollision_of_entries_nil rfl
    · exact Cmd.NoAliasCollision_of_entries_nil rfl

/-! ## Visiting orders -/

/-- C20: resolution is deterministic when aliases do not collide: for every tree
in which, under each parent, no token is contained in the alias lists of two
different children unless it is also the name of a child of that parent, and
for every other visiting order of its children maps, `FindCmd` on any token
list returns the same node (absent in both cases, or the same tree, with the
same `Name`) and the same remainder. -/
theorem FindCmd_order_independent (c₁ c₂ : Cmd) (args : List String)
    (hsame : Cmd.SameTree c₁ c₂) (hwf : Cmd.TreeWF c₁) (hnc : Cmd.NoAliasCollision c₁) :
    Cmd.SameNode (Cmd.FindCmd c₁ args).1 (Cmd.FindCmd c₂ args).1 ∧
      (Cmd.FindCmd c₁ args).2 = (Cmd.FindCmd c₂ args).2 ∧
      (Cmd.FindCmd c₁ args).1.map Cmd.Name = (Cmd.FindCmd c₂ args).1.map Cmd.Name := by
  have h := Cmd.FindCmdLoop_sameTree args c₁ c₂ none none hsame hwf hnc trivial
  exact ⟨h.1, h.2, Cmd.SameNode_map_Name h.1⟩

theorem FindCmd_order_independent_witness :
    Cmd.SameTree exRoot exRootReordered ∧ Cmd.TreeWF exRoot ∧ Cmd.NoAliasCollision exRoot ∧
      exRootReordered.entries = [("status", exStatus), ("help", exHelp), ("deploy", exDeploy)] ∧
      (Cmd.SameNode (Cmd.FindCmd exRoot ["d", "p", "x"]).1
          (Cmd.FindCmd exRootReordered ["d", "p", "x"]).1 ∧
        (Cmd.FindCmd exRoot ["d", "p", "x"]).2 = (Cmd.FindCmd exRootReordered ["d", "p", "x"]).2 ∧
        (Cmd.FindCmd exRoot ["d", "p", "x"]).1.map Cmd.Name =
          (Cmd.FindCmd exRootReordered ["d", "p", "x"]).1.map Cmd.Name) ∧
      Cmd.FindCmd exRootReordered ["d", "p", "x"] = (some exProd, ["x"]) :=
  ⟨Cmd.SameTree_setChildren_of_perm exRoot (List.reverse_perm _) rfl, exRoot_TreeWF,
    exRoot_NoAliasCollision, rfl,
    FindCmd_order_independent exRoot exRootReordered ["d", "p", "x"]
      (Cmd.SameTree_setChildren_of_perm exRoot (List.reverse_perm _) rfl) exRoot_TreeWF
      exRoot_NoAliasCollision,
    rfl⟩

end Ishell
